import Mathlib

/-!
Verification of the polyportal core codec and credential vault.

The Rust source is embedded shallowly:
* bytes are `Fin 256`; byte buffers are `List Byte`;
* `usize`/`u64` arithmetic wraps at `2 ^ 64` (release-mode semantics, 64-bit
  target), made explicit through `wrap64`;
* Rust slice expressions `&bytes[a..b]` become `slice bytes a b`, which is
  `none` exactly when Rust would abort with a slice-bounds panic
  (`a > b` or `b > bytes.len()`);
* fallible functions return `Except` / an explicit outcome type with a
  distinguished panic case.
-/

set_option maxRecDepth 200000

namespace Polyportal

/-- A byte, as stored in a Rust `u8` / `Vec<u8>`. -/
abbrev Byte := Fin 256

/-- `usize` wrap-around at `2 ^ 64` (64-bit target, release-mode overflow). -/
def wrap64 (n : Nat) : Nat := n % (2 ^ 64)

/-- Rust `&bytes[a..b]`: `none` exactly when the slice bounds panic
(start after end, or end past the buffer). -/
def slice (bytes : List Byte) (a b : Nat) : Option (List Byte) :=
  if a ≤ b ∧ b ≤ bytes.length then some ((bytes.drop a).take (b - a)) else none

/-- Big-endian byte rendering of `v` on `w` bytes (`u64::to_be_bytes` is
`toBeBytes 8`). -/
def toBeBytes : Nat → Nat → List Byte
  | 0, _ => []
  | w + 1, v => toBeBytes w (v / 256) ++ [Fin.ofNat v]

/-- Big-endian value of a byte string (`u64::from_be_bytes` on 8 bytes). -/
def fromBeBytes (l : List Byte) : Nat :=
  l.foldl (fun acc b => acc * 256 + b.val) 0

/-- `parse_u256` from `sdk/src/client.rs`: errors when fewer than 32 bytes,
otherwise reads bytes 24..32 as a big-endian `u64`. -/
def parse_u256 (bytes : List Byte) : Except String Nat :=
  if bytes.length < 32 then .error "Not enough bytes"
  else .ok (fromBeBytes ((bytes.drop 24).take 8))

/-- `AbiEncoder::encode_uint256` from `sdk/src/contract/abi.rs`: a 32-byte
word with the value big-endian in the low 8 bytes. -/
def encode_uint256 (value : Nat) : List Byte :=
  List.replicate 24 (0 : Byte) ++ toBeBytes 8 value

/-- UTF-8 encoding of one Unicode scalar value (Rust `char` / `str` bytes). -/
def utf8EncodeChar (c : Char) : List Byte :=
  let n := c.toNat
  if n < 0x80 then [Fin.ofNat n]
  else if n < 0x800 then [Fin.ofNat (0xC0 + n / 64), Fin.ofNat (0x80 + n % 64)]
  else if n < 0x10000 then
    [Fin.ofNat (0xE0 + n / 4096), Fin.ofNat (0x80 + n / 64 % 64),
     Fin.ofNat (0x80 + n % 64)]
  else
    [Fin.ofNat (0xF0 + n / 262144), Fin.ofNat (0x80 + n / 4096 % 64),
     Fin.ofNat (0x80 + n / 64 % 64), Fin.ofNat (0x80 + n % 64)]

/-- The UTF-8 bytes of a string (Rust `str::as_bytes` / `str::len` counts
these bytes). -/
def utf8Bytes (s : String) : List Byte :=
  s.data.flatMap utf8EncodeChar

/-- `AbiEncoder::encode_string` from `sdk/src/contract/abi.rs`: offset word
`0x20`, length word, then the UTF-8 bytes zero-padded to a word boundary. -/
def encode_string (s : String) : List Byte :=
  let bs := utf8Bytes s
  let paddedLength := (bs.length + 31) / 32 * 32
  encode_uint256 0x20 ++ encode_uint256 bs.length ++
    (bs ++ List.replicate (paddedLength - bs.length) (0 : Byte))

/-- The result of running a fallible Rust function that may also panic:
`panic` models an abort (arithmetic overflow in debug builds / slice-bounds
violation), `err` the `Err` variant, `ok` the `Ok` variant. -/
inductive Outcome (α : Type) : Type where
  | panic : Outcome α
  | err : String → Outcome α
  | ok : α → Outcome α
deriving DecidableEq, Repr

/-- Is `b` a UTF-8 continuation byte (`0x80..0xBF`)? -/
def utf8Cont (b : Byte) : Bool := 0x80 ≤ b.val ∧ b.val < 0xC0

/-- Validity of a byte string as UTF-8, exactly as `String::from_utf8`
checks it (no overlong forms, no surrogates, scalar values ≤ `0x10FFFF`). -/
def validUtf8 : List Byte → Bool
  | [] => true
  | b :: rest =>
    if b.val < 0x80 then validUtf8 rest
    else if b.val < 0xC2 then false
    else if b.val < 0xE0 then
      match rest with
      | c1 :: r => utf8Cont c1 && validUtf8 r
      | [] => false
    else if b.val < 0xF0 then
      match rest with
      | c1 :: c2 :: r =>
        (if b.val = 0xE0 then 0xA0 ≤ c1.val ∧ c1.val < 0xC0
         else if b.val = 0xED then 0x80 ≤ c1.val ∧ c1.val < 0xA0
         else utf8Cont c1 = true) && utf8Cont c2 && validUtf8 r
      | _ => false
    else if b.val < 0xF5 then
      match rest with
      | c1 :: c2 :: c3 :: r =>
        (if b.val = 0xF0 then 0x90 ≤ c1.val ∧ c1.val < 0xC0
         else if b.val = 0xF4 then 0x80 ≤ c1.val ∧ c1.val < 0x90
         else utf8Cont c1 = true) && utf8Cont c2 && utf8Cont c3 && validUtf8 r
      | _ => false
    else false

/-- One endpoint record (`EndpointInfo` in `sdk/src/client.rs`); the text
fields are kept as their UTF-8 bytes. -/
structure EndpointInfo : Type where
  url : List Byte
  description : List Byte
deriving DecidableEq, Repr

/-- The body of the element loop of `decode_abi_string_array_inner` for one
element offset `so` (`string_offset` in the source): produces `some` element
bytes, `none` when the element is skipped, or an error/panic outcome. -/
def resolveElem (bytes : List Byte) (so : Nat) : Outcome (Option (List Byte)) :=
  if bytes.length ≥ wrap64 (so + 32) then
    match slice bytes so (wrap64 (so + 32)) with
    | none => .panic
    | some w =>
      match parse_u256 w with
      | .error e => .err e
      | .ok stringLen =>
        if bytes.length ≥ wrap64 (so + 32 + stringLen) then
          match slice bytes (wrap64 (so + 32)) (wrap64 (so + 32 + stringLen)) with
          | none => .panic
          | some stringBytes =>
            .ok (if validUtf8 stringBytes then some stringBytes else none)
        else .ok none
  else .ok none

/-- The `for _ in 0..len` loop of `decode_abi_string_array_inner`: reads one
element-offset word per iteration at `pos`, stops early when the buffer
cannot hold the word. -/
def innerLoop (bytes : List Byte) : Nat → Nat → Outcome (List (List Byte))
  | _, 0 => .ok []
  | pos, fuel + 1 =>
    if bytes.length < wrap64 (pos + 32) then .ok []
    else
      match slice bytes pos (wrap64 (pos + 32)) with
      | none => .panic
      | some w =>
        match parse_u256 w with
        | .error e => .err e
        | .ok so =>
          match resolveElem bytes so with
          | .panic => .panic
          | .err e => .err e
          | .ok elem =>
            match innerLoop bytes (wrap64 (pos + 32)) fuel with
            | .panic => .panic
            | .err e => .err e
            | .ok rest => .ok (elem.toList ++ rest)

/-- `decode_abi_string_array_inner` from `sdk/src/client.rs`. -/
def decode_abi_string_array_inner (bytes : List Byte) (offset : Nat) :
    Outcome (List (List Byte)) :=
  if bytes.length < wrap64 (offset + 32) then .ok []
  else
    match slice bytes offset (wrap64 (offset + 32)) with
    | none => .panic
    | some w =>
      match parse_u256 w with
      | .error e => .err e
      | .ok len => innerLoop bytes (wrap64 (offset + 32)) len

/-- `decode_abi_string_array` from `sdk/src/client.rs`: reads the two head
words, decodes both arrays, zips them into records. -/
def decode_abi_string_array (bytes : List Byte) : Outcome (List EndpointInfo) :=
  if bytes.length < 64 then .ok []
  else
    match slice bytes 0 32 with
    | none => .panic
    | some w0 =>
      match parse_u256 w0 with
      | .error e => .err e
      | .ok urlsOffset =>
        match slice bytes 32 64 with
        | none => .panic
        | some w1 =>
          match parse_u256 w1 with
          | .error e => .err e
          | .ok descsOffset =>
            match decode_abi_string_array_inner bytes urlsOffset with
            | .panic => .panic
            | .err e => .err e
            | .ok urls =>
              match decode_abi_string_array_inner bytes descsOffset with
              | .panic => .panic
              | .err e => .err e
              | .ok descriptions =>
                .ok (List.zipWith (fun u d => EndpointInfo.mk u d)
                      urls descriptions)

/-- Does the outcome hold an `Ok` value? -/
def Outcome.isOk {α : Type} : Outcome α → Bool
  | .ok _ => true
  | _ => false

/-- Reading the low 8 bytes of the 32-byte word at buffer position `p` as an
unsigned integer, with mathematical (non-wrapping) bounds; `none` when the
word does not fit in the buffer.  Transcribed from the spec's decoding
narrative ("read the length word at `offset`; interpret low 8 bytes as an
unsigned count"). -/
def readWord (bytes : List Byte) (p : Nat) : Option Nat :=
  if p + 32 ≤ bytes.length then some (fromBeBytes ((bytes.drop (p + 24)).take 8))
  else none

/-- Modelled from the spec: resolving one array element whose length word
sits at buffer position `target` — read the length word there, take that many
following bytes, keep them only when they are valid UTF-8 (spec §4.5 step 4:
skipped elements yield `none`). -/
def specElem (bytes : List Byte) (target : Nat) : Option (List Byte) :=
  match readWord bytes target with
  | none => none
  | some stringLen =>
    if target + 32 + stringLen ≤ bytes.length then
      let sb := (bytes.drop (target + 32)).take stringLen
      if validUtf8 sb then some sb else none
    else none

/-- Modelled from the spec: the element loop of §4.5 step 3/4 — read one
element-offset word per iteration, stop early when the buffer cannot hold
it, resolve each element through `resolve` and collect the survivors. -/
def specLoop (bytes : List Byte) (resolve : Nat → Nat) :
    Nat → Nat → List (List Byte)
  | _, 0 => []
  | pos, fuel + 1 =>
    match readWord bytes pos with
    | none => []
    | some e => (specElem bytes (resolve e)).toList ++
        specLoop bytes resolve (pos + 32) fuel

/-- Modelled from the spec (§4.5, steps 1–4) with element offsets interpreted
as ABSOLUTE buffer positions: the element's length word is read at buffer
position `e` itself. -/
def specArrayElemsAbs (bytes : List Byte) (offset : Nat) : List (List Byte) :=
  match readWord bytes offset with
  | none => []
  | some n => specLoop bytes (fun e => e) (offset + 32) n

/-- Modelled from the spec (§4.5, step 4 as written): element offsets are
interpreted RELATIVE to the array's tail base `offset + 32` (the position
right after the length word), so the element's length word is read at
`offset + 32 + e`. -/
def specArrayElemsRel (bytes : List Byte) (offset : Nat) : List (List Byte) :=
  match readWord bytes offset with
  | none => []
  | some n => specLoop bytes (fun e => offset + 32 + e) (offset + 32) n

/-- The value of the `i`-th head word of a response buffer (`urls_offset`
for `i = 0`, `descs_offset` for `i = 1`). -/
def headOffset (bytes : List Byte) (i : Nat) : Nat :=
  fromBeBytes ((bytes.drop (32 * i + 24)).take 8)

/-- A buffer of `n` zero bytes. -/
def zeros (n : Nat) : List Byte := List.replicate n (0 : Byte)

/-- A 32-byte word padded with a short data payload: `payload` followed by
zero bytes up to 32. -/
def dataWord (payload : List Byte) : List Byte :=
  payload ++ zeros (32 - payload.length)

/-- A well-formed response buffer encoding two empty string arrays: head
words `0x40`/`0x60`, then two zero length words. -/
def emptyTwoArrays : List Byte :=
  encode_uint256 64 ++ encode_uint256 96 ++ encode_uint256 0 ++ encode_uint256 0

/-- A 64-byte buffer whose first head word carries the value
`2 ^ 64 - 1` in its low 8 bytes (and a zero second head word). -/
def hugeOffsetBuf : List Byte :=
  zeros 24 ++ List.replicate 8 (255 : Byte) ++ zeros 32

/-- A 64-byte buffer whose first head word carries the value
`2 ^ 64 - 2` in its low 8 bytes. -/
def hugeOffsetBuf2 : List Byte :=
  zeros 24 ++ List.replicate 7 (255 : Byte) ++ [(254 : Byte)] ++ zeros 32

/-- A buffer distinguishing absolute from tail-relative element offsets for
the array starting at offset 32: the single element-offset word holds 96;
the word at absolute position 96 encodes a length-1 string `"a"`, while the
word at tail-relative position `32 + 32 + 96 = 160` encodes a length-1
string `"b"`. -/
def absRelBuf : List Byte :=
  encode_uint256 0 ++ encode_uint256 1 ++ encode_uint256 96 ++
  encode_uint256 1 ++ dataWord [97] ++ encode_uint256 1 ++ dataWord [98]

/-- A response buffer encoding urls `["u1", "u2"]` (array at offset 64) and
descriptions `["d1"]` (array at offset 160), with all element offsets given
as the absolute positions the decoder actually uses. -/
def twoOneBuf : List Byte :=
  encode_uint256 64 ++ encode_uint256 160 ++
  encode_uint256 2 ++ encode_uint256 256 ++ encode_uint256 320 ++
  encode_uint256 1 ++ encode_uint256 384 ++ encode_uint256 0 ++
  encode_uint256 2 ++ dataWord [117, 49] ++
  encode_uint256 2 ++ dataWord [117, 50] ++
  encode_uint256 2 ++ dataWord [100, 49]

/-- The numeric value of one hex digit, as `hex::decode` accepts it
(`0-9`, `a-f`, `A-F`); `none` on any other character. -/
def hexDigitVal (c : Char) : Option Nat :=
  if '0' ≤ c ∧ c ≤ '9' then some (c.toNat - 48)
  else if 'a' ≤ c ∧ c ≤ 'f' then some (c.toNat - 87)
  else if 'A' ≤ c ∧ c ≤ 'F' then some (c.toNat - 55)
  else none

/-- `hex::decode`: pairs of hex digits to bytes; fails on odd length or a
non-hex character. -/
def hexDecodeChars : List Char → Option (List Byte)
  | [] => some []
  | [_] => none
  | c1 :: c2 :: r =>
    match hexDigitVal c1, hexDigitVal c2, hexDecodeChars r with
    | some hi, some lo, some rest => some (Fin.ofNat (hi * 16 + lo) :: rest)
    | _, _, _ => none

/-- The lowercase hex digit for `n < 16` (`hex::encode` output alphabet). -/
def hexDigitChar (n : Nat) : Char :=
  if n < 10 then Char.ofNat (48 + n) else Char.ofNat (87 + n)

/-- `hex::encode`: each byte to two lowercase hex digits. -/
def hexEncodeChars : List Byte → List Char
  | [] => []
  | b :: r => hexDigitChar (b.val / 16) :: hexDigitChar (b.val % 16) ::
      hexEncodeChars r

/-- `key.strip_prefix("0x").unwrap_or(key)`. -/
def strip0x : List Char → List Char
  | '0' :: 'x' :: r => r
  | l => l

/-- An authenticated cipher in the shape the vault uses `Aes256Gcm`:
`enc key nonce plaintext` yields the ciphertext-with-tag bytes and
`dec key nonce ciphertext` yields the plaintext or `none` on an
authentication failure.  The AES-GCM laws the vault relies on (round trip
under the same key, failure under a different key) enter the theorems as
hypotheses on this structure. -/
structure AEAD : Type where
  enc : List Byte → List Byte → List Byte → List Byte
  dec : List Byte → List Byte → List Byte → Option (List Byte)

/-- `encrypt_private_key` from `cli/src/crypto.rs`, with the random salt and
nonce passed in explicitly, the SHA-256 key derivation abstracted as `kdf`,
and AES-GCM abstracted as `A`.  Mirrors the source's failure points: cipher
construction rejects a key that is not 32 bytes, and the secret must be
valid hex after stripping an optional `0x` prefix. -/
def encrypt_private_key (A : AEAD) (kdf : List Byte → List Byte → List Byte)
    (salt nonce : List Byte) (key : List Char) (password : List Byte) :
    Except String (List Char) :=
  let encryptionKey := kdf password salt
  if encryptionKey.length ≠ 32 then .error "invalid key length"
  else
    match hexDecodeChars (strip0x key) with
    | none => .error "Failed to decode private key"
    | some privateKeyBytes =>
      let ciphertext := A.enc encryptionKey nonce privateKeyBytes
      .ok (hexEncodeChars (salt ++ nonce ++ ciphertext))

/-- `decrypt_private_key` from `cli/src/crypto.rs`: hex-decode the blob,
check the minimum size `SALT_SIZE + NONCE_SIZE = 28`, split off salt and
nonce, re-derive the key, authenticated-decrypt, and re-encode the
plaintext as `0x`-prefixed lowercase hex. -/
def decrypt_private_key (A : AEAD) (kdf : List Byte → List Byte → List Byte)
    (encrypted : List Char) (password : List Byte) :
    Except String (List Char) :=
  match hexDecodeChars encrypted with
  | none => .error "invalid hex"
  | some data =>
    if data.length < 16 + 12 then .error "Invalid encrypted data format"
    else
      let salt := data.take 16
      let nonceBytes := (data.drop 16).take 12
      let ciphertext := data.drop 28
      let encryptionKey := kdf password salt
      if encryptionKey.length ≠ 32 then .error "invalid key length"
      else
        match A.dec encryptionKey nonceBytes ciphertext with
        | none => .error "Decryption failed - wrong password?"
        | some plaintext => .ok ('0' :: 'x' :: hexEncodeChars plaintext)

/-- A concrete authenticated cipher used to instantiate the AEAD laws in
witnesses: the "tag" is the key and nonce themselves, appended to the
plaintext, and decryption strips and checks it. -/
def tagAEAD : AEAD where
  enc k n pt := pt ++ k ++ n
  dec k n ct :=
    if ct.length ≥ k.length + n.length ∧
        ct.drop (ct.length - (k.length + n.length)) = k ++ n then
      some (ct.take (ct.length - (k.length + n.length)))
    else none

/-- A concrete 32-byte key derivation used to instantiate the theorems in
witnesses. -/
def padKdf (password salt : List Byte) : List Byte :=
  (password ++ salt ++ List.replicate 32 (0 : Byte)).take 32

/-- Left rotation of a 64-bit lane. -/
def rol64 (x n : Nat) : Nat :=
  ((x <<< (n % 64)) ||| (x >>> (64 - n % 64))) % 2 ^ 64

/-- The ρ-step rotation offsets, indexed `[x][y]`. -/
def keccakRot : List (List Nat) :=
  [[0, 36, 3, 41, 18], [1, 44, 10, 45, 2], [62, 6, 43, 15, 61],
   [28, 55, 25, 21, 56], [27, 20, 39, 8, 14]]

/-- The 24 round constants of Keccak-f[1600] (decimal). -/
def keccakRC : List Nat :=
  [1, 32898, 9223372036854808714,
   9223372039002292224, 32907, 2147483649,
   9223372039002292353, 9223372036854808585, 138,
   136, 2147516425, 2147483658,
   2147516555, 9223372036854775947, 9223372036854808713,
   9223372036854808579, 9223372036854808578, 9223372036854775936,
   32778, 9223372039002259466, 9223372039002292353,
   9223372036854808704, 2147483649, 9223372039002292232]

/-- Lane `(x, y)` of a Keccak state held as 25 64-bit lanes in the order
`x + 5 y`. -/
def lane (s : List Nat) (x y : Nat) : Nat := s.getD (x % 5 + 5 * (y % 5)) 0

/-- One round of Keccak-f[1600] (θ, ρ, π, χ, ι) with round constant `rc`. -/
def keccakRound (s : List Nat) (rc : Nat) : List Nat :=
  let c := fun x => lane s x 0 ^^^ lane s x 1 ^^^ lane s x 2 ^^^
    lane s x 3 ^^^ lane s x 4
  let d := fun x => c ((x + 4) % 5) ^^^ rol64 (c ((x + 1) % 5)) 1
  let a := fun x y => lane s x y ^^^ d x
  let b := fun x y =>
    rol64 (a ((x + 3 * y) % 5) x) ((keccakRot.getD ((x + 3 * y) % 5) []).getD x 0)
  let e := fun x y =>
    b x y ^^^ (((2 ^ 64 - 1) ^^^ b ((x + 1) % 5) y) &&& b ((x + 2) % 5) y)
  (List.range 25).map fun i =>
    if i = 0 then e 0 0 ^^^ rc else e (i % 5) (i / 5)

/-- The full Keccak-f[1600] permutation. -/
def keccakF (s : List Nat) : List Nat := keccakRC.foldl keccakRound s

/-- Keccak multi-rate padding (`pad10*1`) to the 136-byte rate of
Keccak-256. -/
def keccakPad (msg : List Nat) : List Nat :=
  let padLen := 136 - msg.length % 136
  if padLen = 1 then msg ++ [0x81]
  else msg ++ [0x01] ++ List.replicate (padLen - 2) 0 ++ [0x80]

/-- Little-endian value of a byte string (lane loading order). -/
def fromLeBytes (l : List Nat) : Nat :=
  l.foldr (fun b acc => acc * 256 + b) 0

/-- XOR one 136-byte block into the state and permute. -/
def keccakAbsorbBlock (s : List Nat) (block : List Nat) : List Nat :=
  let ls := (List.range 17).map fun i => fromLeBytes ((block.drop (8 * i)).take 8)
  keccakF ((List.range 25).map fun i => s.getD i 0 ^^^ ls.getD i 0)

/-- Absorb `nblocks` 136-byte blocks of the padded message `p`. -/
def keccakAbsorbAll (s : List Nat) (p : List Nat) : Nat → List Nat
  | 0 => s
  | k + 1 => keccakAbsorbAll (keccakAbsorbBlock s (p.take 136)) (p.drop 136) k

/-- Keccak-256 of a byte string (`sha3::Keccak256::digest`): 32 output
bytes, squeezed little-endian from the first four lanes. -/
def keccak256 (msg : List Nat) : List Nat :=
  let p := keccakPad msg
  let s := keccakAbsorbAll (List.replicate 25 0) p (p.length / 136)
  (List.range 32).map fun i => (s.getD (i / 8) 0 >>> (8 * (i % 8))) % 256

/-- `method_id::get_all_endpoints` from `sdk/src/contract.rs`: the first 4
bytes of `Keccak256::digest(b"getAllEndpoints()")`. -/
def get_all_endpoints : List Nat :=
  (keccak256 ((utf8Bytes "getAllEndpoints()").map Fin.val)).take 4

/-- The hardcoded method-identifier string `"0x36346628"` that
`PolyEndpointClient::get_endpoints` puts in its `eth_call` payload
(`sdk/src/client.rs` line 51). -/
def hardcodedMethodId : List Char :=
  ['0', 'x', '3', '6', '3', '4', '6', '6', '2', '8']

/-- The blob produced by encrypting the secret `0x01` under password byte
`97` with the concrete witness cipher, all-zero salt and all-zero nonce. -/
def c1Blob : List Char :=
  hexEncodeChars (zeros 16 ++ zeros 12 ++
    tagAEAD.enc (padKdf [97] (zeros 16)) (zeros 12) [1])

/-! ### Word codec lemmas -/

theorem toBeBytes_length (w v : Nat) : (toBeBytes w v).length = w := by
  induction w generalizing v with
  | zero => rfl
  | succ w ih => simp [toBeBytes, ih]

theorem fromBeBytes_append_singleton (l : List Byte) (b : Byte) :
    fromBeBytes (l ++ [b]) = fromBeBytes l * 256 + b.val := by
  simp [fromBeBytes, List.foldl_append]

theorem fromBeBytes_toBeBytes (w v : Nat) :
    fromBeBytes (toBeBytes w v) = v % 256 ^ w := by
  induction w generalizing v with
  | zero => simp [toBeBytes, fromBeBytes, Nat.mod_one]
  | succ w ih =>
    have hv : ((Fin.ofNat v : Byte)).val = v % 256 := rfl
    rw [toBeBytes, fromBeBytes_append_singleton, ih, hv, pow_succ,
      mul_comm ((256 : Nat) ^ w) 256, Nat.mod_mul]
    ring

theorem fromBeBytes_aux_lt (l : List Byte) :
    ∀ acc, List.foldl (fun acc b => acc * 256 + b.val) acc l <
      (acc + 1) * 256 ^ l.length := by
  induction l with
  | nil => intro acc; simpa using Nat.lt_succ_self acc
  | cons b r ih =>
    intro acc
    have h1 := ih (acc * 256 + b.val)
    have hb : b.val < 256 := b.isLt
    have h2 : (acc * 256 + b.val + 1) * 256 ^ r.length ≤
        (acc + 1) * 256 ^ (r.length + 1) := by
      rw [pow_succ]
      calc (acc * 256 + b.val + 1) * 256 ^ r.length
              ≤ ((acc + 1) * 256) * 256 ^ r.length := by
                apply Nat.mul_le_mul_right; omega
          _ = (acc + 1) * (256 ^ r.length * 256) := by ring
    simpa [List.foldl] using lt_of_lt_of_le h1 h2

theorem fromBeBytes_lt (l : List Byte) : fromBeBytes l < 256 ^ l.length := by
  simpa [fromBeBytes] using fromBeBytes_aux_lt l 0

theorem fromBeBytes_lt_word (l : List Byte) (h : l.length ≤ 8) :
    fromBeBytes l < 2 ^ 64 := by
  have h1 := fromBeBytes_lt l
  have h2 : (256 : Nat) ^ l.length ≤ 256 ^ 8 := Nat.pow_le_pow_right (by omega) h
  have : (256 : Nat) ^ 8 = 2 ^ 64 := by norm_num
  omega

theorem encode_uint256_length (v : Nat) : (encode_uint256 v).length = 32 := by
  simp [encode_uint256, toBeBytes_length]

theorem parse_u256_encode_uint256 (v : Nat) :
    parse_u256 (encode_uint256 v) = .ok (v % 2 ^ 64) := by
  have hl : (encode_uint256 v).length = 32 := encode_uint256_length v
  have hdrop : (encode_uint256 v).drop 24 = toBeBytes 8 v := by
    have h0 : (List.replicate 24 (0 : Byte) ++ toBeBytes 8 v).drop 24 =
        toBeBytes 8 v := List.drop_left' (by simp)
    simpa [encode_uint256] using h0
  have htake : (toBeBytes 8 v).take 8 = toBeBytes 8 v :=
    List.take_of_length_le (by simp [toBeBytes_length])
  have : (256 : Nat) ^ 8 = 2 ^ 64 := by norm_num
  rw [parse_u256, if_neg (by omega), hdrop, htake, fromBeBytes_toBeBytes, this]

/-- C7: for every value `u` in the unsigned 64-bit range, decoding the low
8 bytes of the word produced by `encode_uint256 u` — which is what
`parse_u256` does — yields `u` again, and the 24 high bytes of the word are
all zero. -/
theorem uint256_roundtrip (u : Nat) (h : u < 2 ^ 64) :
    parse_u256 (encode_uint256 u) = .ok u ∧
    (encode_uint256 u).take 24 = List.replicate 24 (0 : Byte) := by
  refine ⟨?_, ?_⟩
  · rw [parse_u256_encode_uint256, Nat.mod_eq_of_lt h]
  · have h0 : (List.replicate 24 (0 : Byte) ++ toBeBytes 8 u).take 24 =
        List.replicate 24 (0 : Byte) := List.take_left' (by simp)
    simpa [encode_uint256] using h0

theorem uint256_roundtrip_witness :
    123 < 2 ^ 64 ∧
    (parse_u256 (encode_uint256 123) = .ok 123 ∧
      (encode_uint256 123).take 24 = List.replicate 24 (0 : Byte)) :=
  ⟨by norm_num, uint256_roundtrip 123 (by norm_num)⟩

/-- C6: for every string `s` whose UTF-8 byte length fits a machine word,
`encode_string s` has exactly `64 + ((len + 31) / 32) * 32` bytes; its first
word decodes to the fixed offset `0x20`, its second word decodes to the
UTF-8 byte length of `s`, and the remainder is exactly the UTF-8 bytes of
`s` zero-padded to the next multiple of 32.  `encode_string` is a total
function, so it fails for no input string. -/
theorem encode_string_layout (s : String)
    (h : (utf8Bytes s).length < 2 ^ 64) :
    (encode_string s).length =
      64 + ((utf8Bytes s).length + 31) / 32 * 32 ∧
    parse_u256 ((encode_string s).take 32) = .ok 0x20 ∧
    parse_u256 (((encode_string s).drop 32).take 32) =
      .ok (utf8Bytes s).length ∧
    (encode_string s).drop 64 =
      utf8Bytes s ++
        List.replicate
          (((utf8Bytes s).length + 31) / 32 * 32 - (utf8Bytes s).length)
          (0 : Byte) := by
  have h20 : (encode_uint256 0x20).length = 32 := encode_uint256_length _
  have hlen : (encode_uint256 (utf8Bytes s).length).length = 32 :=
    encode_uint256_length _
  have hdrop32 : (encode_string s).drop 32 =
      encode_uint256 (utf8Bytes s).length ++
        (utf8Bytes s ++
          List.replicate
            (((utf8Bytes s).length + 31) / 32 * 32 - (utf8Bytes s).length)
            (0 : Byte)) := by
    have h0 : (encode_uint256 0x20 ++
        (encode_uint256 (utf8Bytes s).length ++
          (utf8Bytes s ++
            List.replicate
              (((utf8Bytes s).length + 31) / 32 * 32 - (utf8Bytes s).length)
              (0 : Byte)))).drop 32 =
        encode_uint256 (utf8Bytes s).length ++
          (utf8Bytes s ++
            List.replicate
              (((utf8Bytes s).length + 31) / 32 * 32 - (utf8Bytes s).length)
              (0 : Byte)) := List.drop_left' h20
    simpa [encode_string] using h0
  refine ⟨?_, ?_, ?_, ?_⟩
  · simp [encode_string, h20, hlen]
    omega
  · have : (encode_string s).take 32 = encode_uint256 0x20 := by
      have h0 : (encode_uint256 0x20 ++
          (encode_uint256 (utf8Bytes s).length ++
            (utf8Bytes s ++
              List.replicate
                (((utf8Bytes s).length + 31) / 32 * 32 - (utf8Bytes s).length)
                (0 : Byte)))).take 32 =
          encode_uint256 0x20 := List.take_left' h20
      simpa [encode_string] using h0
    rw [this, parse_u256_encode_uint256]
    norm_num
  · have : ((encode_string s).drop 32).take 32 =
        encode_uint256 (utf8Bytes s).length := by
      rw [hdrop32]
      exact List.take_left' hlen
    rw [this, parse_u256_encode_uint256, Nat.mod_eq_of_lt h]
  · have : (encode_string s).drop 64 = ((encode_string s).drop 32).drop 32 := by
      rw [List.drop_drop]
    rw [this, hdrop32, List.drop_left' hlen]

theorem encode_string_layout_witness :
    (utf8Bytes "a").length < 2 ^ 64 ∧
    ((encode_string "a").length =
        64 + ((utf8Bytes "a").length + 31) / 32 * 32 ∧
      parse_u256 ((encode_string "a").take 32) = .ok 0x20 ∧
      parse_u256 (((encode_string "a").drop 32).take 32) =
        .ok (utf8Bytes "a").length ∧
      (encode_string "a").drop 64 =
        utf8Bytes "a" ++
          List.replicate
            (((utf8Bytes "a").length + 31) / 32 * 32 -
              (utf8Bytes "a").length) (0 : Byte)) :=
  ⟨by decide, encode_string_layout "a" (by decide)⟩

/-! ### Slice and wrap lemmas -/

theorem two64 : (2 : Nat) ^ 64 = 18446744073709551616 := by norm_num

theorem slice_some {bytes : List Byte} {a b : Nat} {w : List Byte}
    (h : slice bytes a b = some w) :
    a ≤ b ∧ b ≤ bytes.length ∧ w = (bytes.drop a).take (b - a) := by
  unfold slice at h
  split at h
  case isTrue hc =>
    injection h with h'
    exact ⟨hc.1, hc.2, h'.symm⟩
  case isFalse => exact absurd h (by simp)

theorem slice_word_some {bytes : List Byte} {a : Nat} {w : List Byte}
    (h : slice bytes a (wrap64 (a + 32)) = some w) :
    a + 32 < 2 ^ 64 ∧ wrap64 (a + 32) = a + 32 ∧
    w = (bytes.drop a).take 32 ∧ w.length = 32 ∧ a + 32 ≤ bytes.length := by
  obtain ⟨hab, hbl, hw⟩ := slice_some h
  have hwlt : wrap64 (a + 32) < 2 ^ 64 := Nat.mod_lt _ (by norm_num)
  have hlt : a + 32 < 2 ^ 64 := by
    by_contra hge
    push_neg at hge
    have ha : a < 2 ^ 64 := lt_of_le_of_lt hab hwlt
    have : wrap64 (a + 32) = a + 32 - 2 ^ 64 := by
      simp only [wrap64, two64] at *
      omega
    simp only [two64] at *
    omega
  have heq : wrap64 (a + 32) = a + 32 := Nat.mod_eq_of_lt hlt
  rw [heq] at hbl hw
  refine ⟨hlt, heq, by simpa using hw, ?_, hbl⟩
  rw [hw]
  simp only [List.length_take, List.length_drop]
  omega

theorem word_low8 (bytes : List Byte) (a : Nat) :
    (((bytes.drop a).take 32).drop 24).take 8 = (bytes.drop (a + 24)).take 8 := by
  rw [List.drop_take, List.drop_drop, List.take_take]
  norm_num [Nat.add_comm]

/-- The value carried in the low 8 bytes of the word at buffer position
`a`. -/
theorem parse_of_slice_word {bytes : List Byte} {a : Nat} {w : List Byte}
    (h : slice bytes a (wrap64 (a + 32)) = some w) :
    parse_u256 w = .ok (fromBeBytes ((bytes.drop (a + 24)).take 8)) ∧
    fromBeBytes ((bytes.drop (a + 24)).take 8) < 2 ^ 64 := by
  obtain ⟨hlt, heq, hw, hwl, hle⟩ := slice_word_some h
  constructor
  · rw [parse_u256, if_neg (by omega), hw, word_low8]
  · exact fromBeBytes_lt_word _ (by
      simpa using List.length_take_le 8 (bytes.drop (a + 24)))

/-! ### The decoder never produces the error variant -/

theorem resolveElem_ne_err (bytes : List Byte) (so : Nat) (e : String) :
    resolveElem bytes so ≠ .err e := by
  rw [resolveElem]
  split
  case isTrue =>
    cases hs : slice bytes so (wrap64 (so + 32)) with
    | none => simp
    | some w =>
      obtain ⟨hp, _⟩ := parse_of_slice_word hs
      simp only [hp]
      split
      case isTrue =>
        cases slice bytes (wrap64 (so + 32))
            (wrap64 (so + 32 + fromBeBytes ((bytes.drop (so + 24)).take 8))) with
        | none => simp
        | some sb => simp
      case isFalse => simp
  case isFalse => simp

theorem innerLoop_ne_err (bytes : List Byte) :
    ∀ (fuel pos : Nat) (e : String), innerLoop bytes pos fuel ≠ .err e := by
  intro fuel
  induction fuel with
  | zero => intro pos e; simp [innerLoop]
  | succ f ih =>
    intro pos e
    rw [innerLoop]
    split
    case isTrue => simp
    case isFalse =>
      cases hs : slice bytes pos (wrap64 (pos + 32)) with
      | none => simp
      | some w =>
        obtain ⟨hp, _⟩ := parse_of_slice_word hs
        simp only [hp]
        cases hre : resolveElem bytes
            (fromBeBytes ((bytes.drop (pos + 24)).take 8)) with
        | panic => simp
        | err e' => exact absurd hre (resolveElem_ne_err bytes _ e')
        | ok elem =>
          cases hloop : innerLoop bytes (wrap64 (pos + 32)) f with
          | panic => simp
          | err e' => exact absurd hloop (ih _ e')
          | ok rest => simp

theorem decode_abi_string_array_inner_ne_err (bytes : List Byte)
    (offset : Nat) (e : String) :
    decode_abi_string_array_inner bytes offset ≠ .err e := by
  rw [decode_abi_string_array_inner]
  split
  case isTrue => simp
  case isFalse =>
    cases hs : slice bytes offset (wrap64 (offset + 32)) with
    | none => simp
    | some w =>
      obtain ⟨hp, _⟩ := parse_of_slice_word hs
      simp only [hp]
      exact innerLoop_ne_err bytes _ _ e

theorem slice_head0 (bytes : List Byte) (h : 64 ≤ bytes.length) :
    slice bytes 0 32 = some ((bytes.drop 0).take 32) := by
  unfold slice
  rw [if_pos ⟨by omega, by omega⟩]

theorem slice_head1 (bytes : List Byte) (h : 64 ≤ bytes.length) :
    slice bytes 32 64 = some ((bytes.drop 32).take 32) := by
  unfold slice
  rw [if_pos ⟨by omega, by omega⟩]

theorem parse_head0 (bytes : List Byte) (h : 64 ≤ bytes.length) :
    parse_u256 ((bytes.drop 0).take 32) = .ok (headOffset bytes 0) := by
  have hl : ((bytes.drop 0).take 32).length = 32 := by
    simp only [List.length_take, List.length_drop]
    omega
  rw [parse_u256, if_neg (by omega), word_low8]
  simp [headOffset]

theorem parse_head1 (bytes : List Byte) (h : 64 ≤ bytes.length) :
    parse_u256 ((bytes.drop 32).take 32) = .ok (headOffset bytes 1) := by
  have hl : ((bytes.drop 32).take 32).length = 32 := by
    simp only [List.length_take, List.length_drop]
    omega
  rw [parse_u256, if_neg (by omega), word_low8]
  simp [headOffset]

/-- With both inner decodes known, the outer decoder returns exactly the
element-wise zip of the two arrays. -/
theorem decode_eq_zip (bytes : List Byte) (urls descs : List (List Byte))
    (h64 : 64 ≤ bytes.length)
    (hu : decode_abi_string_array_inner bytes (headOffset bytes 0) = .ok urls)
    (hd : decode_abi_string_array_inner bytes (headOffset bytes 1) = .ok descs) :
    decode_abi_string_array bytes =
      .ok (List.zipWith (fun u d => EndpointInfo.mk u d) urls descs) := by
  rw [decode_abi_string_array, if_neg (by omega)]
  simp only [slice_head0 bytes h64, parse_head0 bytes h64,
    slice_head1 bytes h64, parse_head1 bytes h64, hu, hd]

theorem decode_abi_string_array_ne_err (bytes : List Byte) (e : String) :
    decode_abi_string_array bytes ≠ .err e := by
  rw [decode_abi_string_array]
  split
  case isTrue => simp
  case isFalse h64 =>
    push_neg at h64
    simp only [slice_head0 bytes h64, parse_head0 bytes h64,
      slice_head1 bytes h64, parse_head1 bytes h64]
    cases hu : decode_abi_string_array_inner bytes (headOffset bytes 0) with
    | panic => simp
    | err e' =>
      exact absurd hu (decode_abi_string_array_inner_ne_err bytes _ e')
    | ok urls =>
      cases hd : decode_abi_string_array_inner bytes (headOffset bytes 1) with
      | panic => simp
      | err e' =>
        exact absurd hd (decode_abi_string_array_inner_ne_err bytes _ e')
      | ok descs => simp

/-! ### Agreement of the decoder with the absolute-offset description -/

theorem resolveElem_ok_spec (bytes : List Byte) (hb : bytes.length < 2 ^ 64)
    (so : Nat) (elem : Option (List Byte))
    (h : resolveElem bytes so = .ok elem) : elem = specElem bytes so := by
  unfold resolveElem at h
  split at h
  case isTrue hge =>
    cases hs : slice bytes so (wrap64 (so + 32)) with
    | none =>
      simp only [hs] at h
      exact Outcome.noConfusion h
    | some w =>
      simp only [hs] at h
      obtain ⟨hlt, heq, hw, hwl, hle⟩ := slice_word_some hs
      obtain ⟨hp, hvlt⟩ := parse_of_slice_word hs
      simp only [hp] at h
      have hread : readWord bytes so =
          some (fromBeBytes ((bytes.drop (so + 24)).take 8)) := by
        rw [readWord, if_pos hle]
      set v := fromBeBytes ((bytes.drop (so + 24)).take 8) with hv
      split at h
      case isTrue h2 =>
        by_cases h3 : so + 32 + v < 2 ^ 64
        · have heq2 : wrap64 (so + 32 + v) = so + 32 + v := Nat.mod_eq_of_lt h3
          rw [heq2] at h2
          have hsub : so + 32 + v - (so + 32) = v := by omega
          have hs2 : slice bytes (wrap64 (so + 32)) (wrap64 (so + 32 + v)) =
              some ((bytes.drop (so + 32)).take v) := by
            rw [heq, heq2]
            unfold slice
            rw [if_pos ⟨by omega, h2⟩, hsub]
          simp only [hs2] at h
          injection h with h'
          simp only [specElem, hread, if_pos (show so + 32 + v ≤ bytes.length
            by omega)]
          exact h'.symm
        · have hwle : wrap64 (so + 32 + v) ≤ so + 32 + v := Nat.mod_le _ _
          have hwmod : wrap64 (so + 32 + v) < 2 ^ 64 :=
            Nat.mod_lt _ (by norm_num)
          have hwlt2 : wrap64 (so + 32 + v) < so + 32 := by
            have : wrap64 (so + 32 + v) = so + 32 + v - 2 ^ 64 := by
              simp only [wrap64, two64] at *
              omega
            omega
          have hs2 : slice bytes (wrap64 (so + 32)) (wrap64 (so + 32 + v)) =
              none := by
            unfold slice
            exact if_neg (by omega)
          simp only [hs2] at h
          exact Outcome.noConfusion h
      case isFalse h2 =>
        injection h with h'
        simp only [specElem, hread, if_neg (show ¬ so + 32 + v ≤ bytes.length
          from fun hcon => h2 (le_trans (Nat.mod_le _ _) hcon))]
        exact h'.symm
  case isFalse hlt' =>
    injection h with h'
    have hr : readWord bytes so = none := by
      have hwle : wrap64 (so + 32) ≤ so + 32 := Nat.mod_le _ _
      rw [readWord, if_neg]
      omega
    simp only [specElem, hr]
    exact h'.symm

theorem innerLoop_ok_spec (bytes : List Byte) (hb : bytes.length < 2 ^ 64) :
    ∀ (fuel pos : Nat) (l : List (List Byte)),
      innerLoop bytes pos fuel = .ok l →
      l = specLoop bytes (fun e => e) pos fuel := by
  intro fuel
  induction fuel with
  | zero =>
    intro pos l h
    have h0 : innerLoop bytes pos 0 = .ok [] := rfl
    rw [h0] at h
    injection h with h'
    exact h'.symm
  | succ f ih =>
    intro pos l h
    rw [show innerLoop bytes pos (f + 1) =
      (if bytes.length < wrap64 (pos + 32) then .ok []
      else
        match slice bytes pos (wrap64 (pos + 32)) with
        | none => .panic
        | some w =>
          match parse_u256 w with
          | .error e => .err e
          | .ok so =>
            match resolveElem bytes so with
            | .panic => .panic
            | .err e => .err e
            | .ok elem =>
              match innerLoop bytes (wrap64 (pos + 32)) f with
              | .panic => .panic
              | .err e => .err e
              | .ok rest => .ok (elem.toList ++ rest)) from rfl] at h
    split at h
    case isTrue hlt =>
      injection h with h'
      have hr : readWord bytes pos = none := by
        have hwle : wrap64 (pos + 32) ≤ pos + 32 := Nat.mod_le _ _
        rw [readWord, if_neg]
        omega
      simp only [specLoop, hr]
      exact h'.symm
    case isFalse =>
      cases hs : slice bytes pos (wrap64 (pos + 32)) with
      | none =>
        simp only [hs] at h
        exact Outcome.noConfusion h
      | some w =>
        simp only [hs] at h
        obtain ⟨hlt, heq, hw, hwl, hle⟩ := slice_word_some hs
        obtain ⟨hp, hvlt⟩ := parse_of_slice_word hs
        simp only [hp] at h
        cases hre : resolveElem bytes
            (fromBeBytes ((bytes.drop (pos + 24)).take 8)) with
        | panic =>
          simp only [hre] at h
          exact Outcome.noConfusion h
        | err e' => exact absurd hre (resolveElem_ne_err bytes _ e')
        | ok elem =>
          simp only [hre] at h
          cases hloop : innerLoop bytes (wrap64 (pos + 32)) f with
          | panic =>
            simp only [hloop] at h
            exact Outcome.noConfusion h
          | err e' => exact absurd hloop (innerLoop_ne_err bytes f _ e')
          | ok rest =>
            simp only [hloop] at h
            injection h with h'
            rw [heq] at hloop
            have hrest : rest = specLoop bytes (fun e => e) (pos + 32) f :=
              ih _ _ hloop
            have helem : elem =
                specElem bytes (fromBeBytes ((bytes.drop (pos + 24)).take 8)) :=
              resolveElem_ok_spec bytes hb _ _ hre
            have hread : readWord bytes pos =
                some (fromBeBytes ((bytes.drop (pos + 24)).take 8)) := by
              rw [readWord, if_pos hle]
            simp only [specLoop, hread]
            rw [← helem, ← hrest]
            exact h'.symm

/-! ### Decoder claims -/

/-- C3 (as amended): element offsets in the dynamic array decoder are
interpreted as ABSOLUTE buffer positions — whenever
`decode_abi_string_array_inner` returns a list at all, that list is exactly
what the spec's four-step algorithm produces when each element's length word
is read at buffer position `element_offset` itself, for every input buffer
(of machine-representable length) and every array offset. -/
theorem inner_uses_absolute_offsets (bytes : List Byte) (offset : Nat)
    (l : List (List Byte)) (hb : bytes.length < 2 ^ 64)
    (h : decode_abi_string_array_inner bytes offset = .ok l) :
    l = specArrayElemsAbs bytes offset := by
  unfold decode_abi_string_array_inner at h
  split at h
  case isTrue hlt =>
    injection h with h'
    have hr : readWord bytes offset = none := by
      have hwle : wrap64 (offset + 32) ≤ offset + 32 := Nat.mod_le _ _
      rw [readWord, if_neg]
      omega
    simp only [specArrayElemsAbs, hr]
    exact h'.symm
  case isFalse =>
    cases hs : slice bytes offset (wrap64 (offset + 32)) with
    | none =>
      simp only [hs] at h
      exact Outcome.noConfusion h
    | some w =>
      simp only [hs] at h
      obtain ⟨hlt, heq, hw, hwl, hle⟩ := slice_word_some hs
      obtain ⟨hp, hvlt⟩ := parse_of_slice_word hs
      simp only [hp] at h
      have hread : readWord bytes offset =
          some (fromBeBytes ((bytes.drop (offset + 24)).take 8)) := by
        rw [readWord, if_pos hle]
      simp only [specArrayElemsAbs, hread]
      rw [heq] at h
      exact innerLoop_ok_spec bytes hb _ _ _ h

theorem inner_uses_absolute_offsets_witness :
    (absRelBuf.length < 2 ^ 64 ∧
      decode_abi_string_array_inner absRelBuf 32 = .ok [[97]]) ∧
    [[(97 : Byte)]] = specArrayElemsAbs absRelBuf 32 :=
  ⟨⟨by decide, by decide⟩,
    inner_uses_absolute_offsets absRelBuf 32 [[97]] (by decide) (by decide)⟩

/-- C3 counterexample: on `absRelBuf` the decoder returns the string read at
the absolute element offset (byte `97`, `"a"`), not the string the
tail-relative interpretation of the spec sentence would produce (byte `98`,
`"b"`). -/
theorem inner_relative_offsets_cex :
    decode_abi_string_array_inner absRelBuf 32 = .ok [[97]] ∧
    specArrayElemsRel absRelBuf 32 = [[98]] ∧
    Outcome.ok [[(97 : Byte)]] ≠ Outcome.ok [[(98 : Byte)]] := by
  refine ⟨by decide, by decide, by decide⟩

/-- C5: the decoder is NOT panic-free — on a 64-byte buffer whose first head
word carries the offset `2 ^ 64 - 1`, the guard `bytes.len() < offset + 32`
wraps around and `decode_abi_string_array` aborts (debug: add overflow;
release: slice bound panic, `start > end`), modeled here as the `panic`
outcome. -/
theorem decode_panics_on_huge_offset :
    decode_abi_string_array hugeOffsetBuf = .panic := by decide

/-- C8 (as amended): provided `offset + 32` does not overflow the machine
word, a buffer shorter than `offset + 32` makes
`decode_abi_string_array_inner` return an empty list, not an error; and the
well-formed buffer encoding two empty string arrays decodes to an empty
record list without error. -/
theorem inner_short_buffer_empty :
    (∀ (bytes : List Byte) (offset : Nat), offset + 32 < 2 ^ 64 →
      bytes.length < offset + 32 →
      decode_abi_string_array_inner bytes offset = .ok []) ∧
    decode_abi_string_array emptyTwoArrays = .ok [] := by
  constructor
  · intro bytes offset h1 h2
    have heq : wrap64 (offset + 32) = offset + 32 := Nat.mod_eq_of_lt h1
    rw [decode_abi_string_array_inner, heq, if_pos h2]
  · decide

theorem inner_short_buffer_empty_witness :
    (100 + 32 < 2 ^ 64 ∧ (zeros 20).length < 100 + 32 ∧
      decode_abi_string_array_inner (zeros 20) 100 = .ok []) ∧
    decode_abi_string_array emptyTwoArrays = .ok [] :=
  ⟨⟨by norm_num, by decide,
      inner_short_buffer_empty.1 (zeros 20) 100 (by norm_num) (by decide)⟩,
    inner_short_buffer_empty.2⟩

/-- C8 counterexample: with the array offset `2 ^ 64 - 1` and a 64-byte
buffer, the buffer IS shorter than `offset + 32`, yet the decoder panics
(wrapped guard, then slice bound) instead of returning the empty list. -/
theorem inner_short_buffer_cex :
    (zeros 64).length < (2 ^ 64 - 1) + 32 ∧
    decode_abi_string_array_inner (zeros 64) (2 ^ 64 - 1) = .panic ∧
    decode_abi_string_array_inner (zeros 64) (2 ^ 64 - 1) ≠ .ok [] := by
  refine ⟨by decide, by decide, by decide⟩

/-- C9: the outer decoder zips the two decoded string lists element-by-element
into records, up to the length of the shorter list, discarding the excess of
the longer; the result has length `min` of the two and its `i`-th record
pairs the `i`-th url with the `i`-th description. -/
theorem decode_zips (bytes : List Byte) (urls descs : List (List Byte))
    (h64 : 64 ≤ bytes.length)
    (hu : decode_abi_string_array_inner bytes (headOffset bytes 0) = .ok urls)
    (hd : decode_abi_string_array_inner bytes (headOffset bytes 1) = .ok descs) :
    decode_abi_string_array bytes =
      .ok (List.zipWith (fun u d => EndpointInfo.mk u d) urls descs) ∧
    (List.zipWith (fun u d => EndpointInfo.mk u d) urls descs).length =
      min urls.length descs.length ∧
    ∀ i : Nat, i < urls.length → i < descs.length →
      (List.zipWith (fun u d => EndpointInfo.mk u d) urls descs).getD i
          (EndpointInfo.mk [] []) =
        EndpointInfo.mk (urls.getD i []) (descs.getD i []) := by
  refine ⟨decode_eq_zip bytes urls descs h64 hu hd, List.length_zipWith _ _ _, ?_⟩
  intro i h1 h2
  have hz : i < (List.zipWith (fun u d => EndpointInfo.mk u d) urls descs).length := by
    rw [List.length_zipWith]
    omega
  rw [List.getD_eq_getElem _ _ hz, List.getD_eq_getElem _ _ h1,
    List.getD_eq_getElem _ _ h2, List.getElem_zipWith]

theorem decode_zips_witness :
    (64 ≤ twoOneBuf.length ∧
      decode_abi_string_array_inner twoOneBuf (headOffset twoOneBuf 0) =
        .ok [[117, 49], [117, 50]] ∧
      decode_abi_string_array_inner twoOneBuf (headOffset twoOneBuf 1) =
        .ok [[100, 49]]) ∧
    decode_abi_string_array twoOneBuf =
      .ok (List.zipWith (fun u d => EndpointInfo.mk u d)
        [[117, 49], [117, 50]] [[100, 49]]) :=
  ⟨⟨by decide, by decide, by decide⟩,
    (decode_zips twoOneBuf [[117, 49], [117, 50]] [[100, 49]]
      (by decide) (by decide) (by decide)).1⟩

/-- C10 (as amended): `decode_abi_string_array` never returns the error
variant — every `parse_u256` call is guarded so its error branch is
unreachable — and a buffer shorter than 64 bytes yields `Ok` with an empty
record list.  (It is not total over `Ok`: some buffers panic, see the
counterexample.) -/
theorem decode_no_error_variant (bytes : List Byte) :
    (∀ e : String, decode_abi_string_array bytes ≠ .err e) ∧
    (bytes.length < 64 → decode_abi_string_array bytes = .ok []) := by
  refine ⟨fun e => decode_abi_string_array_ne_err bytes e, fun h => ?_⟩
  rw [decode_abi_string_array, if_pos h]

theorem decode_no_error_variant_witness :
    decode_abi_string_array (zeros 10) ≠ .err "boom" ∧
    decode_abi_string_array (zeros 10) = .ok [] :=
  ⟨(decode_no_error_variant (zeros 10)).1 "boom",
    (decode_no_error_variant (zeros 10)).2 (by decide)⟩

/-- C10 counterexample: the decoder is not total over `Ok` — on a 64-byte
buffer whose first head word carries `2 ^ 64 - 2`, it panics rather than
returning any `Ok` value. -/
theorem decode_not_always_ok_cex :
    (decode_abi_string_array hugeOffsetBuf2).isOk = false ∧
    decode_abi_string_array hugeOffsetBuf2 = .panic := by
  refine ⟨by decide, by decide⟩

/-! ### Hex codec lemmas -/

theorem hexDigitVal_hexDigitChar (n : Nat) (h : n < 16) :
    hexDigitVal (hexDigitChar n) = some n := by
  interval_cases n <;> decide

theorem hexDecode_hexEncode (bs : List Byte) :
    hexDecodeChars (hexEncodeChars bs) = some bs := by
  induction bs with
  | nil => rfl
  | cons b r ih =>
    have hhi : b.val / 16 < 16 := by omega
    have hlo : b.val % 16 < 16 := by omega
    have hb : (Fin.ofNat (b.val / 16 * 16 + b.val % 16) : Byte) = b := by
      apply Fin.ext
      show (b.val / 16 * 16 + b.val % 16) % 256 = b.val
      omega
    rw [hexEncodeChars, hexDecodeChars, hexDigitVal_hexDigitChar _ hhi,
      hexDigitVal_hexDigitChar _ hlo, ih]
    show some (Fin.ofNat (b.val / 16 * 16 + b.val % 16) :: r) = some (b :: r)
    rw [hb]

/-! ### Laws of the concrete witness cipher and key derivation -/

theorem tagAEAD_correct (k n pt : List Byte) :
    tagAEAD.dec k n (tagAEAD.enc k n pt) = some pt := by
  show (if (pt ++ k ++ n).length ≥ k.length + n.length ∧
      (pt ++ k ++ n).drop ((pt ++ k ++ n).length - (k.length + n.length)) =
        k ++ n then
    some ((pt ++ k ++ n).take ((pt ++ k ++ n).length - (k.length + n.length)))
  else none) = some pt
  have hlen : (pt ++ k ++ n).length = pt.length + (k.length + n.length) := by
    simp only [List.length_append]
    omega
  have hpos : (pt ++ k ++ n).length - (k.length + n.length) = pt.length := by
    omega
  have hassoc : pt ++ k ++ n = pt ++ (k ++ n) := by
    rw [List.append_assoc]
  have hdrop : (pt ++ k ++ n).drop pt.length = k ++ n := by
    rw [hassoc]
    exact List.drop_left' rfl
  have htake : (pt ++ k ++ n).take pt.length = pt := by
    rw [hassoc]
    exact List.take_left' rfl
  rw [hpos, if_pos ⟨by omega, hdrop⟩, htake]

theorem tagAEAD_auth (k k' n pt : List Byte) (hl : k.length = k'.length)
    (hne : k ≠ k') : tagAEAD.dec k' n (tagAEAD.enc k n pt) = none := by
  show (if (pt ++ k ++ n).length ≥ k'.length + n.length ∧
      (pt ++ k ++ n).drop ((pt ++ k ++ n).length - (k'.length + n.length)) =
        k' ++ n then
    some ((pt ++ k ++ n).take ((pt ++ k ++ n).length - (k'.length + n.length)))
  else none) = none
  have hlen : (pt ++ k ++ n).length = pt.length + (k.length + n.length) := by
    simp only [List.length_append]
    omega
  have hpos : (pt ++ k ++ n).length - (k'.length + n.length) = pt.length := by
    omega
  have hdrop : (pt ++ k ++ n).drop pt.length = k ++ n := by
    rw [List.append_assoc]
    exact List.drop_left' rfl
  rw [hpos, if_neg]
  intro hcon
  rw [hdrop] at hcon
  exact hne (List.append_inj hcon.2 hl).1

theorem padKdf_length (password salt : List Byte) :
    (padKdf password salt).length = 32 := by
  simp only [padKdf, List.length_take, List.length_append,
    List.length_replicate]
  omega

/-! ### Credential vault claims -/

/-- C2: for every valid-hex secret (with or without a `0x` prefix), every
password, and every choice of 16-byte salt and 12-byte nonce, decrypting
the blob produced by `encrypt_private_key` with the same password succeeds
and returns the secret bytes re-encoded as `0x`-prefixed lowercase hex.
The AES-GCM round-trip law and the 32-byte SHA-256 output length enter as
hypotheses on the abstracted cipher and key derivation. -/
theorem encrypt_decrypt_roundtrip (A : AEAD)
    (kdf : List Byte → List Byte → List Byte)
    (hA : ∀ k n pt, A.dec k n (A.enc k n pt) = some pt)
    (hk : ∀ p s, (kdf p s).length = 32)
    (salt nonce : List Byte) (hs : salt.length = 16) (hn : nonce.length = 12)
    (key : List Char) (password : List Byte) (pk : List Byte)
    (hpk : hexDecodeChars (strip0x key) = some pk) :
    ∃ blob, encrypt_private_key A kdf salt nonce key password = .ok blob ∧
      decrypt_private_key A kdf blob password =
        .ok ('0' :: 'x' :: hexEncodeChars pk) := by
  refine ⟨hexEncodeChars (salt ++ nonce ++ A.enc (kdf password salt) nonce pk),
    ?_, ?_⟩
  · rw [encrypt_private_key, if_neg (by rw [hk]; omega)]
    simp only [hpk]
  · set ct := A.enc (kdf password salt) nonce pk with hct
    have hdata : salt ++ nonce ++ ct = salt ++ (nonce ++ ct) := by
      rw [List.append_assoc]
    rw [decrypt_private_key]
    simp only [hexDecode_hexEncode]
    have hlen : (salt ++ nonce ++ ct).length = 28 + ct.length := by
      simp [List.length_append]
      omega
    rw [if_neg (by omega)]
    have htake : (salt ++ nonce ++ ct).take 16 = salt := by
      rw [hdata]
      exact List.take_left' hs
    have hdrop16 : (salt ++ nonce ++ ct).drop 16 = nonce ++ ct := by
      rw [hdata]
      exact List.drop_left' hs
    have htake12 : ((salt ++ nonce ++ ct).drop 16).take 12 = nonce := by
      rw [hdrop16]
      exact List.take_left' hn
    have hdrop28 : (salt ++ nonce ++ ct).drop 28 = ct := by
      have h1 : ((salt ++ nonce ++ ct).drop 16).drop 12 = ct := by
        rw [hdrop16]
        exact List.drop_left' hn
      rw [List.drop_drop] at h1
      exact h1
    rw [htake, htake12, hdrop28, if_neg (by rw [hk]; omega), hA]

theorem encrypt_decrypt_roundtrip_witness :
    encrypt_private_key tagAEAD padKdf (zeros 16) (zeros 12)
      ['0', 'x', '0', '1'] [97] = .ok c1Blob ∧
    decrypt_private_key tagAEAD padKdf c1Blob [97] =
      .ok ('0' :: 'x' :: hexEncodeChars [1]) := by
  obtain ⟨blob, h1, h2⟩ := encrypt_decrypt_roundtrip tagAEAD padKdf
    tagAEAD_correct padKdf_length (zeros 16) (zeros 12) (by decide)
    (by decide) ['0', 'x', '0', '1'] [97] [1] (by decide)
  have hb : (Except.ok blob : Except String (List Char)) = .ok c1Blob :=
    h1.symm.trans (by rfl)
  injection hb with hb'
  subst hb'
  exact ⟨by rfl, h2⟩

/-- C1: for every secret and every pair of passwords whose derived keys
differ (distinct passwords, under SHA-256 collision resistance), decrypting
a blob produced by `encrypt_private_key` under one password with the other
password surfaces the credential failure `"Decryption failed - wrong
password?"` — never a successfully decrypted wrong plaintext.  The AES-GCM
authenticity law enters as a hypothesis on the abstracted cipher. -/
theorem decrypt_wrong_password (A : AEAD)
    (kdf : List Byte → List Byte → List Byte)
    (hAuth : ∀ k k' n pt, k.length = k'.length → k ≠ k' →
      A.dec k' n (A.enc k n pt) = none)
    (hk : ∀ p s, (kdf p s).length = 32)
    (salt nonce : List Byte) (hs : salt.length = 16) (hn : nonce.length = 12)
    (key : List Char) (password password' : List Byte) (pk : List Byte)
    (hpk : hexDecodeChars (strip0x key) = some pk)
    (hpw : password ≠ password')
    (hne : kdf password salt ≠ kdf password' salt)
    (blob : List Char)
    (hblob : encrypt_private_key A kdf salt nonce key password = .ok blob) :
    decrypt_private_key A kdf blob password' =
      .error "Decryption failed - wrong password?" := by
  rw [encrypt_private_key, if_neg (by rw [hk]; omega)] at hblob
  simp only [hpk] at hblob
  injection hblob with hblob'
  subst hblob'
  set ct := A.enc (kdf password salt) nonce pk with hct
  have hdata : salt ++ nonce ++ ct = salt ++ (nonce ++ ct) := by
    rw [List.append_assoc]
  rw [decrypt_private_key]
  simp only [hexDecode_hexEncode]
  have hlen : (salt ++ nonce ++ ct).length = 28 + ct.length := by
    simp only [List.length_append]
    omega
  rw [if_neg (by omega)]
  have htake : (salt ++ nonce ++ ct).take 16 = salt := by
    rw [hdata]
    exact List.take_left' hs
  have htake12 : ((salt ++ nonce ++ ct).drop 16).take 12 = nonce := by
    rw [hdata, List.drop_left' hs]
    exact List.take_left' hn
  have hdrop28 : (salt ++ nonce ++ ct).drop 28 = ct := by
    have h1 : ((salt ++ nonce ++ ct).drop 16).drop 12 = ct := by
      rw [hdata, List.drop_left' hs]
      exact List.drop_left' hn
    rw [List.drop_drop] at h1
    exact h1
  rw [htake, htake12, hdrop28, if_neg (by rw [hk]; omega),
    hAuth _ _ _ _ (by rw [hk, hk]) hne]

theorem decrypt_wrong_password_witness :
    ([(97 : Byte)] ≠ [98] ∧
      padKdf [97] (zeros 16) ≠ padKdf [98] (zeros 16) ∧
      encrypt_private_key tagAEAD padKdf (zeros 16) (zeros 12)
        ['0', 'x', '0', '1'] [97] = .ok c1Blob) ∧
    decrypt_private_key tagAEAD padKdf c1Blob [98] =
      .error "Decryption failed - wrong password?" :=
  ⟨⟨by decide, by decide, by rfl⟩,
    decrypt_wrong_password tagAEAD padKdf tagAEAD_auth padKdf_length
      (zeros 16) (zeros 12) (by decide) (by decide)
      ['0', 'x', '0', '1'] [97] [98] [1] (by decide) (by decide) (by decide)
      c1Blob (by rfl)⟩

/-! ### Selector claim -/

/-- C4: the selector-derivation rule fails for `get_endpoints` — the first 4
bytes of Keccak-256 of `"getAllEndpoints()"`, which is exactly what
`method_id::get_all_endpoints()` computes, are `0x5a30e46a`, while the
hardcoded `eth_call` payload constant `"0x36346628"` decodes to a different
4-byte value.  The hardcoded constant therefore does not equal the derived
method identifier. -/
theorem get_endpoints_selector_mismatch :
    get_all_endpoints = [0x5a, 0x30, 0xe4, 0x6a] ∧
    hexDecodeChars (strip0x hardcodedMethodId) =
      some [(0x36 : Byte), 0x34, 0x66, 0x28] ∧
    get_all_endpoints ≠ [0x36, 0x34, 0x66, 0x28] := by
  have h1 : get_all_endpoints = [0x5a, 0x30, 0xe4, 0x6a] := by decide
  refine ⟨h1, by decide, ?_⟩
  rw [h1]
  decide

end Polyportal
